import Mathlib

/-!
Verification development for the watermark_zero library core.

The Go sources are shallowly embedded: float64 values are modelled as exact
rationals, Go machine integers as Int/Nat with the Go truncated division and
remainder made explicit, fallible operations (runtime panics, the SVD
factorization error) as Option/Except-style results, and the numerical
transforms that the claims do not inspect (Haar DWT/IDWT, DCT, SVD) as
oracle parameters with the exact call structure of the code around them.
-/

/-- Go conversion int(x) applied to a float64 x: truncation toward zero
(floor for non-negative values, ceiling for negative ones). -/
def goTrunc (q : ℚ) : ℤ := if 0 ≤ q then ⌊q⌋ else ⌈q⌉

/-- Closure installed by Watermark.setEmbedD1 (watermark.go): one-parameter
embedding rule r0 = (float64(int(s0)/d1) + 1.0/4.0 + 1.0/2.0*0.5*bit) * d1,
with s1 returned unchanged. Go integer division is truncated (Int.tdiv). -/
def embedD1 (d1 : ℤ) (s0 s1 bit : ℚ) : ℚ × ℚ :=
  (((((goTrunc s0).tdiv d1 : ℤ) : ℚ) + 1 / 4 + 1 / 2 * (1 / 2) * bit) * (d1 : ℚ), s1)

/-- Closure installed by Watermark.setEmbedD1D2 (watermark.go): two-parameter
embedding rule, applying the same quantization to s0 with step d1 and to s1
with step d2. -/
def embedD1D2 (d1 d2 : ℤ) (s0 s1 bit : ℚ) : ℚ × ℚ :=
  (((((goTrunc s0).tdiv d1 : ℤ) : ℚ) + 1 / 4 + 1 / 2 * (1 / 2) * bit) * (d1 : ℚ),
   ((((goTrunc s1).tdiv d2 : ℤ) : ℚ) + 1 / 4 + 1 / 2 * (1 / 2) * bit) * (d2 : ℚ))

/-- Closure installed by Watermark.setExtractD1 (watermark.go): returns 1 when
int(s0) % d1 > d1/2 and 0 otherwise, with Go truncated % and /. -/
def extractD1 (d1 : ℤ) (s0 s1 : ℚ) : ℚ :=
  if d1.tdiv 2 < (goTrunc s0).tmod d1 then 1 else 0

/-- Closure installed by Watermark.setExtractD1D2 (watermark.go): v is set to
1 when int(s0) % d1 > d1/2; the result is (v*3 + 1)/4 when
int(s1) % d2 > d2/2 and v*3/4 otherwise. -/
def extractD1D2 (d1 d2 : ℤ) (s0 s1 : ℚ) : ℚ :=
  let v : ℚ := if d1.tdiv 2 < (goTrunc s0).tmod d1 then 1 else 0
  if d2.tdiv 2 < (goTrunc s1).tmod d2 then (v * 3 + 1) / 4 else v * 3 / 4

/-- Selection of the embedding closure in the internal watermark package
Embed function: d2 < 1 installs the one-parameter closure, otherwise the
two-parameter one. -/
def embedSelect (d1 d2 : ℤ) : ℚ → ℚ → ℚ → ℚ × ℚ :=
  if d2 < 1 then embedD1 d1 else embedD1D2 d1 d2

/-- Selection of the extraction closure in the internal watermark package
Extract function: d2 < 1 installs the one-parameter closure, otherwise the
two-parameter one. -/
def extractSelect (d1 d2 : ℤ) : ℚ → ℚ → ℚ :=
  if d2 < 1 then extractD1 d1 else extractD1D2 d1 d2

theorem goTrunc_of_nonneg {q : ℚ} (h : 0 ≤ q) : goTrunc q = ⌊q⌋ := if_pos h

theorem intCast_floor_div_eq {q : ℚ} {n : ℕ} (hq : 0 ≤ q) :
    ⌊q⌋ / ((n : ℤ)) = ⌊q / (n : ℚ)⌋ := by
  have h1 : (⌊q⌋₊ : ℤ) = ⌊q⌋ := Int.natCast_floor_eq_floor hq
  have h2 : (⌊q / (n : ℚ)⌋₊ : ℤ) = ⌊q / (n : ℚ)⌋ :=
    Int.natCast_floor_eq_floor (by positivity)
  rw [← h1, ← h2, Nat.floor_div_nat q n]
  exact_mod_cast rfl

theorem floor_tdiv_eq {q : ℚ} {d : ℤ} (hq : 0 ≤ q) (hd : 0 < d) :
    (goTrunc q).tdiv d = ⌊q / (d : ℚ)⌋ := by
  rw [goTrunc_of_nonneg hq]
  have ht : ⌊q⌋.tdiv d = ⌊q⌋ / d := Int.tdiv_eq_ediv (Int.floor_nonneg.2 hq) hd.le
  obtain ⟨n, rfl⟩ : ∃ n : ℕ, (n : ℤ) = d := ⟨d.toNat, Int.toNat_of_nonneg hd.le⟩
  rw [ht, intCast_floor_div_eq hq]
  norm_num

theorem goTrunc_tmod_eq {q : ℚ} {d : ℤ} (hq : 0 ≤ q) (hd : 0 < d) :
    (goTrunc q).tmod d = ⌊q⌋ % d := by
  rw [goTrunc_of_nonneg hq]
  exact Int.tmod_eq_emod (Int.floor_nonneg.2 hq) hd.le

theorem tdiv_two_eq {d : ℤ} (hd : 0 < d) : d.tdiv 2 = d / 2 :=
  Int.tdiv_eq_ediv hd.le (by norm_num)

/-- C3: for non-negative singular values s0, s1, strengths d1 > 0 (and d2 > 0),
and bit in set 0, 1, the one-parameter embedding rule returns
s0p = (floor(s0 / d1) + 1/4 + bit/4) * d1 with s1 unchanged, the two-parameter
rule additionally returns s1p = (floor(s1 / d2) + 1/4 + bit/4) * d2, and the
truncate-then-integer-divide of the code equals floor(s0 / d1). -/
theorem C3_embed_rule (d1 d2 : ℤ) (s0 s1 bit : ℚ)
    (hs0 : 0 ≤ s0) (hs1 : 0 ≤ s1) (hd1 : 0 < d1) (hd2 : 0 < d2)
    (hbit : bit = 0 ∨ bit = 1) :
    embedD1 d1 s0 s1 bit = (((⌊s0 / (d1 : ℚ)⌋ : ℚ) + 1 / 4 + bit / 4) * (d1 : ℚ), s1) ∧
    embedD1D2 d1 d2 s0 s1 bit =
      (((⌊s0 / (d1 : ℚ)⌋ : ℚ) + 1 / 4 + bit / 4) * (d1 : ℚ),
       ((⌊s1 / (d2 : ℚ)⌋ : ℚ) + 1 / 4 + bit / 4) * (d2 : ℚ)) ∧
    (goTrunc s0).tdiv d1 = ⌊s0 / (d1 : ℚ)⌋ := by
  have e0 := floor_tdiv_eq hs0 hd1
  have e1 := floor_tdiv_eq hs1 hd2
  refine ⟨?_, ?_, e0⟩ <;>
    simp only [embedD1, embedD1D2, e0, e1, Prod.mk.injEq] <;>
    constructor <;> ring_nf <;> rfl

/-- Witness for C3 at s0 = 9, s1 = 5, d1 = 3, d2 = 2, bit = 1. -/
theorem C3_embed_rule_witness :
    ((0 : ℚ) ≤ 9 ∧ (0 : ℚ) ≤ 5 ∧ (0 : ℤ) < 3 ∧ (0 : ℤ) < 2 ∧
      ((1 : ℚ) = 0 ∨ (1 : ℚ) = 1)) ∧
    (embedD1 3 9 5 1 =
        (((⌊(9 : ℚ) / ((3 : ℤ) : ℚ)⌋ : ℚ) + 1 / 4 + 1 / 4) * ((3 : ℤ) : ℚ), 5) ∧
      embedD1D2 3 2 9 5 1 =
        (((⌊(9 : ℚ) / ((3 : ℤ) : ℚ)⌋ : ℚ) + 1 / 4 + 1 / 4) * ((3 : ℤ) : ℚ),
         ((⌊(5 : ℚ) / ((2 : ℤ) : ℚ)⌋ : ℚ) + 1 / 4 + 1 / 4) * ((2 : ℤ) : ℚ)) ∧
      (goTrunc 9).tdiv 3 = ⌊(9 : ℚ) / ((3 : ℤ) : ℚ)⌋) :=
  ⟨⟨by simp, by simp, by decide, by decide, Or.inr rfl⟩,
    C3_embed_rule 3 2 9 5 1 (by simp) (by simp) (by decide) (by decide) (Or.inr rfl)⟩

/-- C4: for non-negative s0, s1 and strengths d1 > 0, d2 > 0, the one-parameter
decode returns 1 exactly when (floor s0 mod d1) > d1/2 and 0 otherwise; the
two-parameter decode returns (3*v0 + v1)/4 for the analogous indicators v0 and
v1, and its value always lies in the set 0, 1/4, 3/4, 1. -/
theorem C4_extract_rule (d1 d2 : ℤ) (s0 s1 : ℚ)
    (hs0 : 0 ≤ s0) (hs1 : 0 ≤ s1) (hd1 : 0 < d1) (hd2 : 0 < d2) :
    extractD1 d1 s0 s1 = (if d1 / 2 < ⌊s0⌋ % d1 then (1 : ℚ) else 0) ∧
    extractD1D2 d1 d2 s0 s1 =
      (3 * (if d1 / 2 < ⌊s0⌋ % d1 then (1 : ℚ) else 0)
        + (if d2 / 2 < ⌊s1⌋ % d2 then (1 : ℚ) else 0)) / 4 ∧
    extractD1D2 d1 d2 s0 s1 ∈ ({0, 1 / 4, 3 / 4, 1} : Set ℚ) := by
  have m0 := goTrunc_tmod_eq hs0 hd1
  have m1 := goTrunc_tmod_eq hs1 hd2
  have t1 := tdiv_two_eq hd1
  have t2 := tdiv_two_eq hd2
  have hone : extractD1 d1 s0 s1 = (if d1 / 2 < ⌊s0⌋ % d1 then (1 : ℚ) else 0) := by
    simp only [extractD1, m0, t1]
  have htwo : extractD1D2 d1 d2 s0 s1 =
      (3 * (if d1 / 2 < ⌊s0⌋ % d1 then (1 : ℚ) else 0)
        + (if d2 / 2 < ⌊s1⌋ % d2 then (1 : ℚ) else 0)) / 4 := by
    simp only [extractD1D2, m0, m1, t1, t2]
    by_cases h0 : d1 / 2 < ⌊s0⌋ % d1 <;> by_cases h1 : d2 / 2 < ⌊s1⌋ % d2 <;>
      simp [h0, h1] <;> ring
  refine ⟨hone, htwo, ?_⟩
  rw [htwo]
  by_cases h0 : d1 / 2 < ⌊s0⌋ % d1 <;> by_cases h1 : d2 / 2 < ⌊s1⌋ % d2 <;>
    simp [h0, h1, Set.mem_insert_iff] <;> norm_num

/-- Witness for C4 at s0 = 8, s1 = 5, d1 = 3, d2 = 4. -/
theorem C4_extract_rule_witness :
    ((0 : ℚ) ≤ 8 ∧ (0 : ℚ) ≤ 5 ∧ (0 : ℤ) < 3 ∧ (0 : ℤ) < 4) ∧
    (extractD1 3 8 5 = (if (3 : ℤ) / 2 < ⌊(8 : ℚ)⌋ % 3 then (1 : ℚ) else 0) ∧
      extractD1D2 3 4 8 5 =
        (3 * (if (3 : ℤ) / 2 < ⌊(8 : ℚ)⌋ % 3 then (1 : ℚ) else 0)
          + (if (4 : ℤ) / 2 < ⌊(5 : ℚ)⌋ % 4 then (1 : ℚ) else 0)) / 4 ∧
      extractD1D2 3 4 8 5 ∈ ({0, 1 / 4, 3 / 4, 1} : Set ℚ)) :=
  ⟨⟨by simp, by simp, by decide, by decide⟩,
    C4_extract_rule 3 4 8 5 (by simp) (by simp) (by decide) (by decide)⟩

/-- AverageStore (internal/kmeans): a running sum and count. -/
structure AverageStore where
  sum : ℚ
  count : ℕ
deriving DecidableEq

/-- AverageStore.Add: sum += value, count += 1. -/
def AverageStore.add (s : AverageStore) (v : ℚ) : AverageStore :=
  ⟨s.sum + v, s.count + 1⟩

/-- AverageStore.Average: sum / count. The Go float division of a sum by a
zero count yields NaN; the rational model uses the division-by-zero
convention sum / 0 = 0. -/
def AverageStore.average (s : AverageStore) : ℚ := s.sum / (s.count : ℚ)

/-- Assignment pass of one OneDimKmeans iteration: the label is true exactly
when threshold <= avr. -/
def kmeansAssign (averages : List ℚ) (threshold : ℚ) : List Bool :=
  averages.map (fun a => decide (threshold ≤ a))

/-- Accumulation pass of one OneDimKmeans iteration: each value is added to
the high store when threshold <= avr and to the low store otherwise. -/
def kmeansCenters (averages : List ℚ) (threshold : ℚ) : AverageStore × AverageStore :=
  averages.foldl
    (fun hl a => if threshold ≤ a then (hl.1.add a, hl.2) else (hl.1, hl.2.add a))
    (⟨0, 0⟩, ⟨0, 0⟩)

/-- Iteration loop of OneDimKmeans with explicit fuel (the source iterates at
most 300 times): computes the labels and new centers for the current
threshold, stops when the midpoint moved by less than 10^-6, and otherwise
recurses carrying the freshly computed labels. -/
def kmeansLoop (averages : List ℚ) : ℕ → ℚ × ℚ → List Bool → List Bool
  | 0, _, acc => acc
  | n + 1, center, _ =>
    let threshold := (center.1 + center.2) / 2
    let isClass01 := kmeansAssign averages threshold
    let st := kmeansCenters averages threshold
    let center2 := (st.1.average, st.2.average)
    if |(center2.1 + center2.2) / 2 - threshold| < 1 / 1000000 then isClass01
    else kmeansLoop averages n center2 isClass01

/-- OneDimKmeans (internal/kmeans): initializes the centers to the minimum
and maximum of the list (seeded from averages[0], which panics on the empty
list, modelled as none) and runs kmeansLoop with fuel 300. -/
def OneDimKmeans (averages : List ℚ) : Option (List Bool) :=
  match averages with
  | [] => none
  | a :: _ =>
    some (kmeansLoop averages 300 (averages.foldl min a, averages.foldl max a) [])

theorem kmeansLoop_shape (averages : List ℚ) :
    ∀ n, 1 ≤ n → ∀ center acc,
      ∃ thr, kmeansLoop averages n center acc = kmeansAssign averages thr := by
  intro n
  induction n with
  | zero => omega
  | succ m ih =>
    intro _ center acc
    by_cases hm : m = 0
    · subst hm
      simp only [kmeansLoop]
      split
      · exact ⟨(center.1 + center.2) / 2, rfl⟩
      · exact ⟨(center.1 + center.2) / 2, rfl⟩
    · simp only [kmeansLoop]
      split
      · exact ⟨(center.1 + center.2) / 2, rfl⟩
      · exact ih (by omega) _ _

/-- C8: for every non-empty list of averages, OneDimKmeans starts from
centers (min, max), runs at most 300 iterations (the fuel of kmeansLoop),
returns the labels of an assignment pass (true exactly when the final
threshold is at most the value, hence a vector of the same length), any
iteration whose recomputed midpoint moves by less than 10^-6 stops with the
labels of that pass, and on a constant input the result is a labeling that
gives every index the same label (the function is deterministic). -/
theorem C8_kmeans (averages : List ℚ) (hne : averages ≠ []) :
    (∀ a t, averages = a :: t →
      OneDimKmeans averages =
        some (kmeansLoop averages 300 (averages.foldl min a, averages.foldl max a) [])) ∧
    (∃ thr, OneDimKmeans averages = some (kmeansAssign averages thr)) ∧
    (∀ bs, OneDimKmeans averages = some bs → bs.length = averages.length) ∧
    (∀ (center : ℚ × ℚ) (acc : List Bool) (n : ℕ),
      |((kmeansCenters averages ((center.1 + center.2) / 2)).1.average +
          (kmeansCenters averages ((center.1 + center.2) / 2)).2.average) / 2 -
        (center.1 + center.2) / 2| < 1 / 1000000 →
      kmeansLoop averages (n + 1) center acc =
        kmeansAssign averages ((center.1 + center.2) / 2)) ∧
    (∀ (v : ℚ) (k : ℕ), 1 ≤ k →
      ∃ b, OneDimKmeans (List.replicate k v) = some (List.replicate k b)) := by
  obtain ⟨a, t, rfl⟩ : ∃ a t, averages = a :: t := by
    cases averages with
    | nil => exact absurd rfl hne
    | cons a t => exact ⟨a, t, rfl⟩
  refine ⟨?_, ?_, ?_, ?_, ?_⟩
  · intro a2 t2 h
    cases h
    rfl
  · obtain ⟨thr, h⟩ := kmeansLoop_shape (a :: t) 300 (by omega)
      ((a :: t).foldl min a, (a :: t).foldl max a) []
    exact ⟨thr, by rw [OneDimKmeans, h]⟩
  · intro bs hbs
    obtain ⟨thr, h⟩ := kmeansLoop_shape (a :: t) 300 (by omega)
      ((a :: t).foldl min a, (a :: t).foldl max a) []
    rw [OneDimKmeans, h] at hbs
    cases hbs
    simp [kmeansAssign]
  · intro center acc n hlt
    simp only [kmeansLoop]
    rw [if_pos hlt]
  · intro v k hk
    obtain ⟨k2, rfl⟩ : ∃ k2, k = k2 + 1 := ⟨k - 1, by omega⟩
    have hrep : List.replicate (k2 + 1) v = v :: List.replicate k2 v := rfl
    obtain ⟨thr, h⟩ := kmeansLoop_shape (List.replicate (k2 + 1) v) 300 (by omega)
      ((List.replicate (k2 + 1) v).foldl min v, (List.replicate (k2 + 1) v).foldl max v) []
    refine ⟨decide (thr ≤ v), ?_⟩
    rw [hrep, OneDimKmeans, ← hrep, h]
    simp [kmeansAssign, List.map_replicate]

/-- Witness for C8 at the concrete list [0, 1]. -/
theorem C8_kmeans_witness :
    ([ (0 : ℚ), 1 ] ≠ [] ) ∧
    ((∀ a t, [(0 : ℚ), 1] = a :: t →
      OneDimKmeans [(0 : ℚ), 1] =
        some (kmeansLoop [(0 : ℚ), 1] 300
          ([(0 : ℚ), 1].foldl min a, [(0 : ℚ), 1].foldl max a) [])) ∧
    (∃ thr, OneDimKmeans [(0 : ℚ), 1] = some (kmeansAssign [(0 : ℚ), 1] thr)) ∧
    (∀ bs, OneDimKmeans [(0 : ℚ), 1] = some bs → bs.length = [(0 : ℚ), 1].length) ∧
    (∀ (center : ℚ × ℚ) (acc : List Bool) (n : ℕ),
      |((kmeansCenters [(0 : ℚ), 1] ((center.1 + center.2) / 2)).1.average +
          (kmeansCenters [(0 : ℚ), 1] ((center.1 + center.2) / 2)).2.average) / 2 -
        (center.1 + center.2) / 2| < 1 / 1000000 →
      kmeansLoop [(0 : ℚ), 1] (n + 1) center acc =
        kmeansAssign [(0 : ℚ), 1] ((center.1 + center.2) / 2)) ∧
    (∀ (v : ℚ) (k : ℕ), 1 ≤ k →
      ∃ b, OneDimKmeans (List.replicate k v) = some (List.replicate k b))) :=
  ⟨by decide, C8_kmeans [(0 : ℚ), 1] (by decide)⟩

/-- BlockMap (internal/dwt): the geometry record built by NewBlockMap. -/
structure BlockMap where
  width : ℕ
  height : ℕ
  blockWidth : ℕ
  blockHeight : ℕ
  allocWidth : ℕ
  allocHeight : ℕ
  marginWidth : ℕ
  blockArea : ℕ
  totalAllocArea : ℕ
  blockRowArea : ℕ
deriving DecidableEq

/-- NewBlockMap (internal/dwt): allocWidth and allocHeight are the largest
whole-block multiples, marginWidth the leftover columns, and the derived
areas follow from them. -/
def NewBlockMap (w h bw bh : ℕ) : BlockMap :=
  { width := w, height := h, blockWidth := bw, blockHeight := bh,
    allocWidth := w / bw * bw, allocHeight := h / bh * bh,
    marginWidth := w - w / bw * bw,
    blockArea := bw * bh,
    totalAllocArea := w / bw * bw * (h / bh * bh),
    blockRowArea := w / bw * bw * bh }

/-- BlockMap.get (internal/dwt), with the local variables x = i mod width and
y = i / width of the source inlined: bottom-margin rows are the identity,
right-margin pixels are packed after the allocated area row by row, and
in-block pixels go to block-major position
brow * blockRowArea + bcol * blockArea + by * blockWidth + bx. -/
def BlockMap.get (m : BlockMap) (i : ℕ) : ℕ :=
  if m.allocHeight ≤ i / m.width then i
  else if m.allocWidth ≤ i % m.width then
    m.totalAllocArea + (i / m.width) * m.marginWidth + (i % m.width - m.allocWidth)
  else
    (i / m.width / m.blockHeight) * m.blockRowArea + (i % m.width / m.blockWidth) * m.blockArea
      + (i / m.width % m.blockHeight) * m.blockWidth + i % m.width % m.blockWidth

/-- BlockMap.GetMap (internal/dwt): the full index map over width * height. -/
def BlockMap.GetMap (m : BlockMap) : List ℕ :=
  (List.range (m.width * m.height)).map m.get

/-- Proof-side inverse of BlockMap.get, used to establish the bijection. -/
def blockMapInv (m : BlockMap) (j : ℕ) : ℕ :=
  if m.allocHeight * m.width ≤ j then j
  else if m.totalAllocArea ≤ j then
    ((j - m.totalAllocArea) / m.marginWidth) * m.width
      + (m.allocWidth + (j - m.totalAllocArea) % m.marginWidth)
  else
    (j / m.blockRowArea * m.blockHeight + j % m.blockRowArea % m.blockArea / m.blockWidth)
        * m.width
      + (j % m.blockRowArea / m.blockArea * m.blockWidth
          + j % m.blockRowArea % m.blockArea % m.blockWidth)

theorem div_of_mul_add {q r d : ℕ} (hd : 0 < d) (hr : r < d) : (q * d + r) / d = q := by
  rw [Nat.mul_comm q d, Nat.mul_add_div hd, Nat.div_eq_of_lt hr, Nat.add_zero]

theorem mod_of_mul_add {q r d : ℕ} (hr : r < d) : (q * d + r) % d = r := by
  rw [Nat.mul_comm q d, Nat.mul_add_mod, Nat.mod_eq_of_lt hr]

theorem blockMap_get_lt_and_inv (W H bw bh : ℕ) (hbw : 1 ≤ bw) (hbh : 1 ≤ bh)
    {i : ℕ} (hi : i < W * H) :
    (NewBlockMap W H bw bh).get i < W * H ∧
    blockMapInv (NewBlockMap W H bw bh) ((NewBlockMap W H bw bh).get i) = i := by
  have hW : 0 < W := Nat.pos_of_ne_zero (fun h => by subst h; simp at hi)
  have hxW : i % W < W := Nat.mod_lt _ hW
  have hyH : i / W < H := Nat.div_lt_of_lt_mul hi
  have hiW : W * (i / W) + i % W = i := Nat.div_add_mod i W
  have hcW : W * (i / W) = (i / W) * W := Nat.mul_comm _ _
  simp only [BlockMap.get, blockMapInv, NewBlockMap]
  set aW := W / bw * bw with haW
  set aH := H / bh * bh with haH
  have haWle : aW ≤ W := Nat.div_mul_le_self W bw
  have haHle : aH ≤ H := Nat.div_mul_le_self H bh
  have hWH : H * W = W * H := Nat.mul_comm _ _
  by_cases h1 : aH ≤ i / W
  · -- bottom margin: identity
    rw [if_pos h1]
    refine ⟨hi, ?_⟩
    have hge : aH * W ≤ i := by
      have h2 : aH * W ≤ (i / W) * W := Nat.mul_le_mul_right W h1
      omega
    rw [if_pos hge]
  · rw [if_neg h1]
    push_neg at h1
    by_cases h2 : aW ≤ i % W
    · -- right margin
      rw [if_pos h2]
      have hmWpos : 0 < W - aW := by omega
      have hsub : i % W - aW < W - aW := by omega
      have hb1 : (i / W) * (W - aW) + (i % W - aW) < aH * (W - aW) := by
        have e1 : (i / W + 1) * (W - aW) = (i / W) * (W - aW) + (W - aW) := by ring
        have e2 : (i / W + 1) * (W - aW) ≤ aH * (W - aW) :=
          Nat.mul_le_mul_right _ (by omega)
        omega
      have hsplit : aH * W = aH * aW + aH * (W - aW) := by
        have e3 : aW + (W - aW) = W := by omega
        calc aH * W = aH * (aW + (W - aW)) := by rw [e3]
          _ = aH * aW + aH * (W - aW) := by ring
      have hcTA : aW * aH = aH * aW := Nat.mul_comm _ _
      have hle2 : aH * W ≤ H * W := Nat.mul_le_mul_right W haHle
      refine ⟨by omega, ?_⟩
      have hA : ¬ (aH * W ≤ aW * aH + (i / W) * (W - aW) + (i % W - aW)) := by omega
      rw [if_neg hA]
      have hB : aW * aH ≤ aW * aH + (i / W) * (W - aW) + (i % W - aW) := by omega
      rw [if_pos hB]
      have hC : aW * aH + (i / W) * (W - aW) + (i % W - aW) - aW * aH
          = (i / W) * (W - aW) + (i % W - aW) := by omega
      rw [hC, div_of_mul_add hmWpos hsub, mod_of_mul_add hsub]
      omega
    · -- in block
      rw [if_neg h2]
      push_neg at h2
      have hbwpos : 0 < bw := hbw
      have hbhpos : 0 < bh := hbh
      have haWpos : 0 < aW := by omega
      have hbyv : i / W % bh < bh := Nat.mod_lt _ hbhpos
      have hbx : i % W % bw < bw := Nat.mod_lt _ hbwpos
      have hdm1 : bh * (i / W / bh) + i / W % bh = i / W := Nat.div_add_mod _ _
      have hdm2 : bw * (i % W / bw) + i % W % bw = i % W := Nat.div_add_mod _ _
      have hcm1 : bh * (i / W / bh) = i / W / bh * bh := Nat.mul_comm _ _
      have hcm2 : bw * (i % W / bw) = i % W / bw * bw := Nat.mul_comm _ _
      have hbcol : i % W / bw < W / bw := by
        rw [Nat.div_lt_iff_lt_mul hbwpos]
        omega
      have hbrow : i / W / bh < H / bh := by
        rw [Nat.div_lt_iff_lt_mul hbhpos]
        omega
      -- byv * bw + bx < bw * bh
      have hr2 : i / W % bh * bw + i % W % bw < bw * bh := by
        have e4 : (i / W % bh + 1) * bw = i / W % bh * bw + bw := by ring
        have e5 : (i / W % bh + 1) * bw ≤ bh * bw := Nat.mul_le_mul_right _ (by omega)
        have e6 : bh * bw = bw * bh := Nat.mul_comm _ _
        omega
      -- bcol * (bw*bh) + (byv*bw + bx) < aW * bh
      have hinner : i % W / bw * (bw * bh) + (i / W % bh * bw + i % W % bw) < aW * bh := by
        have e7 : (i % W / bw + 1) * (bw * bh) = i % W / bw * (bw * bh) + bw * bh := by ring
        have e8 : (i % W / bw + 1) * (bw * bh) ≤ W / bw * (bw * bh) :=
          Nat.mul_le_mul_right _ (by omega)
        have e9 : W / bw * (bw * bh) = aW * bh := by rw [haW]; ring
        omega
      -- the whole value is below aW * aH
      have hjTA : i / W / bh * (aW * bh) + i % W / bw * (bw * bh)
          + i / W % bh * bw + i % W % bw < aW * aH := by
        have e10 : (i / W / bh + 1) * (aW * bh) = i / W / bh * (aW * bh) + aW * bh := by ring
        have e11 : (i / W / bh + 1) * (aW * bh) ≤ H / bh * (aW * bh) :=
          Nat.mul_le_mul_right _ (by omega)
        have e12 : H / bh * (aW * bh) = aW * aH := by rw [haH]; ring
        omega
      have hTAle : aW * aH ≤ W * H := Nat.mul_le_mul haWle haHle
      refine ⟨by omega, ?_⟩
      have hle3 : aW * aH ≤ W * aH := Nat.mul_le_mul_right _ haWle
      have hc3 : W * aH = aH * W := Nat.mul_comm _ _
      have hA : ¬ (aH * W ≤ i / W / bh * (aW * bh) + i % W / bw * (bw * bh)
          + i / W % bh * bw + i % W % bw) := by omega
      rw [if_neg hA]
      have hB : ¬ (aW * aH ≤ i / W / bh * (aW * bh) + i % W / bw * (bw * bh)
          + i / W % bh * bw + i % W % bw) := by omega
      rw [if_neg hB]
      have ej : i / W / bh * (aW * bh) + i % W / bw * (bw * bh)
          + i / W % bh * bw + i % W % bw
          = i / W / bh * (aW * bh)
            + (i % W / bw * (bw * bh) + (i / W % bh * bw + i % W % bw)) := by ring
      have hBRApos : 0 < aW * bh := by positivity
      have hBApos : 0 < bw * bh := by positivity
      have hinner2 : i % W / bw * (bw * bh) + (i / W % bh * bw + i % W % bw) < aW * bh := by
        omega
      rw [ej, div_of_mul_add hBRApos hinner2, mod_of_mul_add hinner2,
        div_of_mul_add hBApos hr2, mod_of_mul_add hr2,
        div_of_mul_add hbwpos hbx, mod_of_mul_add hbx]
      have e13 : i / W / bh * bh + i / W % bh = i / W := by omega
      have e14 : i % W / bw * bw + i % W % bw = i % W := by omega
      rw [e13, e14]
      omega

/-- C5: for widths and heights at least 0 and block dimensions at least 1,
the list produced by GetMap is a permutation of List.range (W * H) (every
destination index appears exactly once), an in-block index i = y*W + x maps
to brow*(allocW*bh) + bcol*(bw*bh) + by*bw + bx, bottom-margin indices map
to themselves, and right-margin indices map to
allocW*allocH + y*marginW + (x - allocW). -/
theorem C5_blockmap_bijection (W H bw bh : ℕ) (hbw : 1 ≤ bw) (hbh : 1 ≤ bh) :
    ((NewBlockMap W H bw bh).GetMap).Perm (List.range (W * H)) ∧
    (∀ i < W * H,
      (H / bh * bh ≤ i / W → (NewBlockMap W H bw bh).get i = i) ∧
      (i / W < H / bh * bh → W / bw * bw ≤ i % W →
        (NewBlockMap W H bw bh).get i =
          W / bw * bw * (H / bh * bh) + i / W * (W - W / bw * bw)
            + (i % W - W / bw * bw)) ∧
      (i / W < H / bh * bh → i % W < W / bw * bw →
        (NewBlockMap W H bw bh).get i =
          i / W / bh * (W / bw * bw * bh) + i % W / bw * (bw * bh)
            + i / W % bh * bw + i % W % bw)) := by
  classical
  have key : ∀ i, i < W * H → (NewBlockMap W H bw bh).get i < W * H ∧
      blockMapInv (NewBlockMap W H bw bh) ((NewBlockMap W H bw bh).get i) = i :=
    fun i hi => blockMap_get_lt_and_inv W H bw bh hbw hbh hi
  constructor
  · have hinj : ∀ i1 ∈ List.range (W * H), ∀ i2 ∈ List.range (W * H),
        (NewBlockMap W H bw bh).get i1 = (NewBlockMap W H bw bh).get i2 → i1 = i2 := by
      intro i1 h1 i2 h2 heq
      rw [List.mem_range] at h1 h2
      have k1 := (key i1 h1).2
      have k2 := (key i2 h2).2
      rw [← k1, ← k2, heq]
    have hnodup : ((NewBlockMap W H bw bh).GetMap).Nodup := by
      simp only [BlockMap.GetMap, NewBlockMap]
      exact List.Nodup.map_on hinj (List.nodup_range _)
    have hmem : ∀ j, j ∈ (NewBlockMap W H bw bh).GetMap ↔ j ∈ List.range (W * H) := by
      intro j
      simp only [BlockMap.GetMap, NewBlockMap, List.mem_map, List.mem_range]
      constructor
      · rintro ⟨i, hi, rfl⟩
        exact (key i hi).1
      · intro hj
        have hinj2 : Set.InjOn (NewBlockMap W H bw bh).get ↑(Finset.range (W * H)) := by
          intro a ha b hb hab
          rw [Finset.mem_coe, Finset.mem_range] at ha hb
          have k1 := (key a ha).2
          have k2 := (key b hb).2
          rw [← k1, ← k2, hab]
        have hsub : (Finset.range (W * H)).image (NewBlockMap W H bw bh).get
            ⊆ Finset.range (W * H) := by
          intro a ha
          rw [Finset.mem_image] at ha
          obtain ⟨b, hb, rfl⟩ := ha
          rw [Finset.mem_range] at hb ⊢
          exact (key b hb).1
        have hcard : (Finset.range (W * H)).card
            ≤ ((Finset.range (W * H)).image (NewBlockMap W H bw bh).get).card := by
          rw [Finset.card_image_of_injOn hinj2]
        have heq : (Finset.range (W * H)).image (NewBlockMap W H bw bh).get
            = Finset.range (W * H) :=
          Finset.eq_of_subset_of_card_le hsub hcard
        have hj2 : j ∈ (Finset.range (W * H)).image (NewBlockMap W H bw bh).get := by
          rw [heq, Finset.mem_range]
          exact hj
        rw [Finset.mem_image] at hj2
        obtain ⟨i, hi, hfi⟩ := hj2
        exact ⟨i, Finset.mem_range.1 hi, hfi⟩
    exact (List.perm_ext_iff_of_nodup hnodup (List.nodup_range _)).2 hmem
  · intro i hi
    refine ⟨?_, ?_, ?_⟩
    · intro h
      simp only [BlockMap.get, NewBlockMap]
      rw [if_pos h]
    · intro h1 h2
      simp only [BlockMap.get, NewBlockMap]
      rw [if_neg (by omega), if_pos h2]
    · intro h1 h2
      simp only [BlockMap.get, NewBlockMap]
      rw [if_neg (by omega), if_neg (by omega)]

/-- Witness for C5 at W = 5, H = 3, bw = 2, bh = 1. -/
theorem C5_blockmap_bijection_witness :
    ((1 ≤ 2) ∧ (1 ≤ 1)) ∧
    (((NewBlockMap 5 3 2 1).GetMap).Perm (List.range (5 * 3)) ∧
    (∀ i < 5 * 3,
      (3 / 1 * 1 ≤ i / 5 → (NewBlockMap 5 3 2 1).get i = i) ∧
      (i / 5 < 3 / 1 * 1 → 5 / 2 * 2 ≤ i % 5 →
        (NewBlockMap 5 3 2 1).get i =
          5 / 2 * 2 * (3 / 1 * 1) + i / 5 * (5 - 5 / 2 * 2)
            + (i % 5 - 5 / 2 * 2)) ∧
      (i / 5 < 3 / 1 * 1 → i % 5 < 5 / 2 * 2 →
        (NewBlockMap 5 3 2 1).get i =
          i / 5 / 1 * (5 / 2 * 2 * 1) + i % 5 / 2 * (2 * 1)
            + i / 5 % 1 * 2 + i % 5 % 2))) :=
  ⟨⟨by decide, by decide⟩, C5_blockmap_bijection 5 3 2 1 (by decide) (by decide)⟩

/-- RGBA64 pixel: the four 16-bit channels stored by Go color.RGBA64. -/
structure Pix where
  r : ℕ
  g : ℕ
  b : ℕ
  a : ℕ
deriving DecidableEq

/-- Zero pixel, the content of a freshly allocated RGBA64 image. -/
def zeroPix : Pix := ⟨0, 0, 0, 0⟩

/-- Go image.Rectangle with Min = (x0, y0) and Max = (x1, y1). -/
structure Rect where
  x0 : ℤ
  y0 : ℤ
  x1 : ℤ
  y1 : ℤ
deriving DecidableEq

/-- Rectangle.Dx: zero iterations for a non-positive extent. -/
def Rect.dx (r : Rect) : ℕ := (r.x1 - r.x0).toNat

/-- Rectangle.Dy. -/
def Rect.dy (r : Rect) : ℕ := (r.y1 - r.y0).toNat

/-- Point membership, image.Point.In. -/
def Rect.holds (r : Rect) (x y : ℤ) : Prop :=
  r.x0 ≤ x ∧ x < r.x1 ∧ r.y0 ≤ y ∧ y < r.y1

instance (r : Rect) (x y : ℤ) : Decidable (r.holds x y) := by
  unfold Rect.holds
  infer_instance

/-- Image model: the bounds rectangle together with the At function of the
underlying Go image (pix is exactly what src.At returns at each point). -/
structure GoImage where
  bounds : Rect
  pix : ℤ → ℤ → Pix

/-- At of a concrete RGBA64 image: the stored pixel inside the bounds and
the zero color outside. -/
def GoImage.atO (img : GoImage) (x y : ℤ) : Pix :=
  if img.bounds.holds x y then img.pix x y else zeroPix

/-- NewRGBA64: fresh image over the given bounds, all pixels zero. -/
def newRGBA64 (b : Rect) : GoImage := ⟨b, fun _ _ => zeroPix⟩

/-- SetRGBA64: stores the pixel when the point is inside the bounds and is a
no-op otherwise. -/
def setRGBA64 (img : GoImage) (x y : ℤ) (p : Pix) : GoImage :=
  if img.bounds.holds x y then
    ⟨img.bounds, fun u v => if u = x ∧ v = y then p else img.pix u v⟩
  else img

/-- ColorToYUVBatch forward conversion, Y component: the 16-bit channels are
shifted right by 8 and combined with the BT.601-style weights. -/
def rgbaY (p : Pix) : ℚ :=
  (0.299 : ℚ) * ((p.r >>> 8 : ℕ) : ℚ) + (0.587 : ℚ) * ((p.g >>> 8 : ℕ) : ℚ)
    + (0.114 : ℚ) * ((p.b >>> 8 : ℕ) : ℚ)

/-- ColorToYUVBatch forward conversion, U component. -/
def rgbaU (p : Pix) : ℚ := (0.492 : ℚ) * (((p.b >>> 8 : ℕ) : ℚ) - rgbaY p) + 1 / 2

/-- ColorToYUVBatch forward conversion, V component. -/
def rgbaV (p : Pix) : ℚ := (0.877 : ℚ) * (((p.r >>> 8 : ℕ) : ℚ) - rgbaY p) + 1 / 2

/-- clip16 (internal/yuv): negative values clamp to 0, values above 255 to
65535, otherwise the value is scaled by 257 and truncated to uint16. -/
def clip16 (q : ℚ) : ℕ :=
  if q < 0 then 0 else if 255 < q then 65535 else (goTrunc (q * 257)).toNat

/-- YUVToRGBA64Batch per-pixel inverse conversion with alpha passthrough. -/
def yuvPix (y u v : ℚ) (a : ℕ) : Pix :=
  ⟨clip16 (y + (1.140 : ℚ) * (v - 1 / 2)),
   clip16 (y + (-(0.395 : ℚ)) * (u - 1 / 2) + (-(0.581 : ℚ)) * (v - 1 / 2)),
   clip16 (y + (2.032 : ℚ) * (u - 1 / 2)), a⟩

/-- Pixel gather of Embed and Extract: src.At(x, y) is read at the absolute
coordinates x in [0, W), y in [0, H), row-major, regardless of the bounds
minimum. -/
def gatherPixels (src : GoImage) (W H : ℕ) : List Pix :=
  (List.range H).flatMap (fun y => (List.range W).map (fun (x : ℕ) => src.pix ↑x ↑y))

/-- YUVToRGBA64Batch (internal/yuv): iterates i over the pixel count reading
index i of every channel; a channel shorter than the pixel count makes the
Go loop panic on an out-of-range index, modelled as none. -/
def yuvToRGBA64Batch (ys us vs : List ℚ) (alpha : List ℕ) (area : ℕ) : Option (List Pix) :=
  if area ≤ ys.length ∧ area ≤ us.length ∧ area ≤ vs.length ∧ area ≤ alpha.length then
    some ((List.range area).map (fun i =>
      yuvPix (ys.getD i 0) (us.getD i 0) (vs.getD i 0) (alpha.getD i 0)))
  else none

/-- Pixel scatter of Embed: SetRGBA64(x, y, pixels[idx]) for y in [0, H) and
x in [0, W) with idx running row-major, into a fresh RGBA64 carrying the
source bounds. -/
def scatterPixels (bounds : Rect) (W H : ℕ) (pl : List Pix) : GoImage :=
  ((List.range H).flatMap (fun y => (List.range W).map (fun x => (x, y)))).foldl
    (fun img xy => setRGBA64 img (xy.1 : ℤ) (xy.2 : ℤ) (pl.getD (xy.2 * W + xy.1) zeroPix))
    (newRGBA64 bounds)

/-- Oracle bundle for the numerical transforms the claims do not inspect:
the Haar DWT of a channel (four subbands), the IDWT, the DCT with its idct
write-back closure, and the SVD with its isvd reconstruction closure, where
none models the not-factorizable error of svd.Exec. -/
structure TransformOracle where
  dwt : List ℚ → List (List ℚ)
  idwt : List (List ℚ) → List ℚ
  dct : List ℚ → List ℚ × (List ℚ → List ℚ)
  svd : List ℚ → Option (List ℚ × (List ℚ → List ℚ))

/-- Result of one channel worker in Embed: a worker panic (integer division
by zero in getBit on an empty mark), an early return leaving the channel
slice nil (SVD factorization error), or the reconstructed channel. -/
inductive ChanRes where
  | panicked : ChanRes
  | nilChan : ChanRes
  | okChan : List ℚ → ChanRes
deriving DecidableEq

/-- Channel content after the worker: a worker that returned early leaves
colors[yuv] nil, read as the empty slice. -/
def ChanRes.toList : ChanRes → List ℚ
  | ChanRes.okChan c => c
  | _ => []

/-- Panic test on a channel result. -/
def ChanRes.isPanic : ChanRes → Bool
  | ChanRes.panicked => true
  | _ => false

/-- getBit of Embed (watermark.go): mark[at % markLen] as a float, where
at % 0 on an empty mark is a Go integer-division-by-zero panic, modelled as
none. -/
def getBitM (mark : List Bool) (at_ : ℕ) : Option ℚ :=
  if mark.length = 0 then none
  else some (if mark.getD (at_ % mark.length) false then 1 else 0)

/-- Write-back through the block sub-slice
cA[at*blockArea : (at+1)*blockArea]: the closures write the transformed
data back in place. -/
def writeSlice (l : List ℚ) (off : ℕ) (xs : List ℚ) : List ℚ :=
  l.take off ++ xs ++ l.drop (off + xs.length)

/-- Block loop of an Embed channel worker (watermark.go lines 107-118):
slice the block, read the mark bit, forward DCT, forward SVD (an error
makes the worker return immediately), update the two leading singular
values with the embed closure, then write back through the isvd and idct
closures. -/
def embedLoop (dctO : List ℚ → List ℚ × (List ℚ → List ℚ))
    (svdO : List ℚ → Option (List ℚ × (List ℚ → List ℚ)))
    (embedF : ℚ → ℚ → ℚ → ℚ × ℚ) (mark : List Bool) (blockArea : ℕ) :
    ℕ → ℕ → List ℚ → ChanRes
  | _, 0, cA => ChanRes.okChan cA
  | at_, rem + 1, cA =>
    let data := (cA.drop (at_ * blockArea)).take blockArea
    match getBitM mark at_ with
    | none => ChanRes.panicked
    | some bit =>
      let di := dctO data
      match svdO di.1 with
      | none => ChanRes.nilChan
      | some si =>
        let rr := embedF (si.1.getD 0 0) (si.1.getD 1 0) bit
        let s2 := (si.1.set 0 rr.1).set 1 rr.2
        let data2 := (di.2 (si.2 s2)).take data.length
        embedLoop dctO svdO embedF mark blockArea (at_ + 1) rem
          (writeSlice cA (at_ * blockArea) data2)

/-- Modelled from the spec: the block loop as the specification describes
the SVD failure handling, namely skip this block (leaving cA unchanged) and
continue with the remaining blocks. Source code for this behavior is absent
from the repository (watermark.go returns from the worker instead); this
definition follows the words of the spec for comparison. -/
def embedLoopSkip (dctO : List ℚ → List ℚ × (List ℚ → List ℚ))
    (svdO : List ℚ → Option (List ℚ × (List ℚ → List ℚ)))
    (embedF : ℚ → ℚ → ℚ → ℚ × ℚ) (mark : List Bool) (blockArea : ℕ) :
    ℕ → ℕ → List ℚ → ChanRes
  | _, 0, cA => ChanRes.okChan cA
  | at_, rem + 1, cA =>
    let data := (cA.drop (at_ * blockArea)).take blockArea
    match getBitM mark at_ with
    | none => ChanRes.panicked
    | some bit =>
      let di := dctO data
      match svdO di.1 with
      | none => embedLoopSkip dctO svdO embedF mark blockArea (at_ + 1) rem cA
      | some si =>
        let rr := embedF (si.1.getD 0 0) (si.1.getD 1 0) bit
        let s2 := (si.1.set 0 rr.1).set 1 rr.2
        let data2 := (di.2 (si.2 s2)).take data.length
        embedLoopSkip dctO svdO embedF mark blockArea (at_ + 1) rem
          (writeSlice cA (at_ * blockArea) data2)

/-- One Embed channel worker: forward DWT (oracle), block loop, then the
inverse DWT (oracle) of the mutated cA together with the untouched cH, cV
and cD subbands. -/
def embedChannel (O : TransformOracle) (embedF : ℚ → ℚ → ℚ → ℚ × ℚ)
    (mark : List Bool) (blockArea totalBlocks : ℕ) (chan : List ℚ) : ChanRes :=
  let ws := O.dwt chan
  match embedLoop O.dct O.svd embedF mark blockArea 0 totalBlocks (ws.getD 0 []) with
  | ChanRes.panicked => ChanRes.panicked
  | ChanRes.nilChan => ChanRes.nilChan
  | ChanRes.okChan cA2 =>
    ChanRes.okChan (O.idwt [cA2, ws.getD 1 [], ws.getD 2 [], ws.getD 3 []])

/-- Outcome of Watermark.Embed: a runtime panic, the ErrTooSmallImage
error, or the produced image. -/
inductive EmbedRes where
  | panicked : EmbedRes
  | tooSmall : EmbedRes
  | okImg : GoImage → EmbedRes

/-- Success test on an Embed outcome. -/
def EmbedRes.isOk : EmbedRes → Bool
  | EmbedRes.okImg _ => true
  | _ => false

/-- Image of a successful Embed outcome. -/
def EmbedRes.imgD (r : EmbedRes) (d : GoImage) : GoImage :=
  match r with
  | EmbedRes.okImg img => img
  | _ => d

/-- Watermark.Embed (watermark.go): the capacity check on
totalBlocks = (waveWidth / bw) * (waveHeight / bh) against the mark length
comes before any pixel access; then the pixel gather at absolute
coordinates, the RGB to YUV conversion, three identical channel workers, the
YUV to RGBA64 conversion (indexing a nil channel panics whenever the image
has pixels), and the scatter into a fresh RGBA64 with the source bounds. -/
def EmbedM (O : TransformOracle) (embedF : ℚ → ℚ → ℚ → ℚ × ℚ) (bw bh : ℕ)
    (mark : List Bool) (src : GoImage) : EmbedRes :=
  let W := src.bounds.dx
  let H := src.bounds.dy
  let area := W * H
  let waveW := (W + 1) / 2
  let waveH := (H + 1) / 2
  let blockArea := bw * bh
  let totalBlocks := waveW / bw * (waveH / bh)
  if totalBlocks < mark.length then EmbedRes.tooSmall
  else
    let pixels := gatherPixels src W H
    let alpha := pixels.map Pix.a
    let c0 := embedChannel O embedF mark blockArea totalBlocks (pixels.map rgbaY)
    let c1 := embedChannel O embedF mark blockArea totalBlocks (pixels.map rgbaU)
    let c2 := embedChannel O embedF mark blockArea totalBlocks (pixels.map rgbaV)
    if c0.isPanic || c1.isPanic || c2.isPanic then EmbedRes.panicked
    else
      match yuvToRGBA64Batch c0.toList c1.toList c2.toList alpha area with
      | none => EmbedRes.panicked
      | some pl => EmbedRes.okImg (scatterPixels src.bounds W H pl)

/-- Result of one Extract channel worker together with the shared vote
accumulator: either a runtime panic in setValue (integer division by zero
on markLen = 0) or the accumulator after the worker finished (an SVD error
returns from the worker early, keeping the votes gathered so far). -/
inductive VoteRes where
  | panicked : VoteRes
  | done : List AverageStore → VoteRes
deriving DecidableEq

/-- setValue of Extract (watermark.go): dist[at % markLen].Add(value); the
index expression at % 0 is a Go integer-division-by-zero panic, modelled as
none. -/
def setValueM (dist : List AverageStore) (markLen at_ : ℕ) (v : ℚ) :
    Option (List AverageStore) :=
  if markLen = 0 then none
  else some (dist.set (at_ % markLen) ((dist.getD (at_ % markLen) ⟨0, 0⟩).add v))

/-- Block loop of an Extract channel worker (watermark.go lines 193-202):
forward DCT and SVD per block (an error returns from the worker), decode
the soft value from the two leading singular values, accumulate it at the
logical position at % markLen. -/
def extractLoop (dctO : List ℚ → List ℚ × (List ℚ → List ℚ))
    (svdO : List ℚ → Option (List ℚ × (List ℚ → List ℚ)))
    (extractF : ℚ → ℚ → ℚ) (markLen blockArea : ℕ) (cA : List ℚ) :
    ℕ → ℕ → List AverageStore → VoteRes
  | _, 0, dist => VoteRes.done dist
  | at_, rem + 1, dist =>
    let data := (cA.drop (at_ * blockArea)).take blockArea
    let di := dctO data
    match svdO di.1 with
    | none => VoteRes.done dist
    | some si =>
      let v := extractF (si.1.getD 0 0) (si.1.getD 1 0)
      match setValueM dist markLen at_ v with
      | none => VoteRes.panicked
      | some dist2 =>
        extractLoop dctO svdO extractF markLen blockArea cA (at_ + 1) rem dist2

/-- Outcome of Watermark.Extract: a panic in the vote accumulation, a panic
indexing averages[0] inside OneDimKmeans, the ErrTooSmallImage error, or
the decoded bit vector. -/
inductive ExtractRes where
  | panickedVote : ExtractRes
  | panickedKmeans : ExtractRes
  | tooSmall : ExtractRes
  | okBits : List Bool → ExtractRes
deriving DecidableEq

/-- Sequencing of one Extract channel worker with the rest of the call: a
panic in the worker crashes Extract, otherwise the accumulator flows on. -/
def voteThen (v : VoteRes) (k : List AverageStore → ExtractRes) : ExtractRes :=
  match v with
  | VoteRes.panicked => ExtractRes.panickedVote
  | VoteRes.done d => k d

/-- Tail of Extract after the three workers join: per-bit averages and
OneDimKmeans (whose averages[0] access panics on an empty accumulator). -/
def kmeansFinish (dist : List AverageStore) : ExtractRes :=
  match OneDimKmeans (dist.map AverageStore.average) with
  | none => ExtractRes.panickedKmeans
  | some bits => ExtractRes.okBits bits

/-- Watermark.Extract (watermark.go): the capacity check, the pixel gather
and YUV conversion, three channel workers voting into the shared
accumulator (sequenced here; Add commutes), the per-bit averages, and
OneDimKmeans over them. -/
def ExtractM (O : TransformOracle) (extractF : ℚ → ℚ → ℚ) (bw bh markLen : ℕ)
    (src : GoImage) : ExtractRes :=
  let W := src.bounds.dx
  let H := src.bounds.dy
  let waveW := (W + 1) / 2
  let waveH := (H + 1) / 2
  let blockArea := bw * bh
  let totalBlocks := waveW / bw * (waveH / bh)
  if totalBlocks < markLen then ExtractRes.tooSmall
  else
    let pixels := gatherPixels src W H
    let dist0 : List AverageStore := List.replicate markLen ⟨0, 0⟩
    let cA0 := (O.dwt (pixels.map rgbaY)).getD 0 []
    let cA1 := (O.dwt (pixels.map rgbaU)).getD 0 []
    let cA2 := (O.dwt (pixels.map rgbaV)).getD 0 []
    voteThen (extractLoop O.dct O.svd extractF markLen blockArea cA0 0 totalBlocks dist0)
      (fun dist1 =>
        voteThen (extractLoop O.dct O.svd extractF markLen blockArea cA1 0 totalBlocks dist1)
          (fun dist2 =>
            voteThen
              (extractLoop O.dct O.svd extractF markLen blockArea cA2 0 totalBlocks dist2)
              kmeansFinish))

/-- Panic test on an Embed outcome. -/
def EmbedRes.isPanicked : EmbedRes → Bool
  | EmbedRes.panicked => true
  | _ => false

/-- ErrTooSmallImage test on an Embed outcome. -/
def EmbedRes.isTooSmall : EmbedRes → Bool
  | EmbedRes.tooSmall => true
  | _ => false

/-- Watermark engine value (watermark.go): the zero value of the struct has
nil embed and extract closures, a zero block shape, and nil dct and svd
engines (hasEngines = false). -/
structure WatermarkE where
  blockShape : ℕ × ℕ
  embedC : Option (ℚ → ℚ → ℚ → ℚ × ℚ)
  extractC : Option (ℚ → ℚ → ℚ)
  hasEngines : Bool

/-- Zero value of the Watermark struct allocated by New. -/
def WatermarkE.zero : WatermarkE := ⟨(0, 0), none, none, false⟩

/-- setEmbedD1 (watermark.go): installs the closure; always returns nil. -/
def setEmbedD1W (d1 : ℤ) (w : WatermarkE) : Except String WatermarkE :=
  Except.ok { w with embedC := some (embedD1 d1) }

/-- setExtractD1 (watermark.go): installs the closure; always returns nil. -/
def setExtractD1W (d1 : ℤ) (w : WatermarkE) : Except String WatermarkE :=
  Except.ok { w with extractC := some (extractD1 d1) }

/-- setEmbedD1D2 (watermark.go): installs the closure; always returns nil. -/
def setEmbedD1D2W (d1 d2 : ℤ) (w : WatermarkE) : Except String WatermarkE :=
  Except.ok { w with embedC := some (embedD1D2 d1 d2) }

/-- setExtractD1D2 (watermark.go): installs the closure; always returns nil. -/
def setExtractD1D2W (d1 d2 : ℤ) (w : WatermarkE) : Except String WatermarkE :=
  Except.ok { w with extractC := some (extractD1D2 d1 d2) }

/-- Option type of the watermark package. -/
def OptionW := WatermarkE → Except String WatermarkE

/-- WithD1 (options.go): installs the one-parameter closures; no validation
of d1 is performed. -/
def WithD1 (d1 : ℤ) : OptionW := fun w =>
  match setEmbedD1W d1 w with
  | Except.error e => Except.error e
  | Except.ok w1 => setExtractD1W d1 w1

/-- WithD1D2 (options.go): installs the two-parameter closures; no
validation of d1 or d2 is performed. -/
def WithD1D2 (d1 d2 : ℤ) : OptionW := fun w =>
  match setEmbedD1D2W d1 d2 w with
  | Except.error e => Except.error e
  | Except.ok w1 => setExtractD1D2W d1 d2 w1

/-- WithBlockShape (options.go): odd dimensions are rounded up, dimensions
below 4 clamp to 4, then both are halved and the engines installed. -/
def WithBlockShape (width height : ℤ) : OptionW :=
  let w1 := if width.tmod 2 ≠ 0 then width + 1 else width
  let h1 := if height.tmod 2 ≠ 0 then height + 1 else height
  let w2 := if w1 < 4 then 4 else w1
  let h2 := if h1 < 4 then 4 else h1
  fun w =>
    Except.ok { w with blockShape := ((w2.tdiv 2).toNat, (h2.tdiv 2).toNat), hasEngines := true }

/-- Watermark.init (watermark.go): installs the default d1 = 36, d2 = 20
closures when either closure is nil, and the default 4x4 half-size block
shape plus engines when they are nil; never returns an error. -/
def initW (w : WatermarkE) : Except String WatermarkE :=
  let w1 := if w.embedC.isNone || w.extractC.isNone then
      { w with embedC := some (embedD1D2 36 20), extractC := some (extractD1D2 36 20) }
    else w
  let w2 := if !w1.hasEngines then { w1 with blockShape := (4, 4), hasEngines := true } else w1
  Except.ok w2

/-- Watermark.New (watermark.go): applies each option in order, failing on
the first option error, then runs init. -/
def NewW (opts : List OptionW) : Except String WatermarkE :=
  match opts.foldlM (fun w o => o w) WatermarkE.zero with
  | Except.error e => Except.error e
  | Except.ok w => initW w

/-- C7 counterexample: constructing the engine with a strength option whose
d1 is not strictly positive (WithD1 0) does not fail: New returns an engine
and no error. -/
theorem C7_counterexample : (NewW [WithD1 0]).isOk = true := rfl

/-- C7 amended: engine construction performs no validation of the strength
options (New succeeds and returns an engine for every d1 and d2, including
non-positive ones; the division by d1 only happens later inside the embed
and extract closures); in the internal watermark Embed and Extract
functions, a two-parameter strength with d2 < 1 selects one-parameter mode:
s1 is neither modified on embed nor consulted on extract. -/
theorem C7_options_validation :
    (∀ d1 d2 : ℤ,
      (NewW [WithD1 d1]).isOk = true ∧ (NewW [WithD1D2 d1 d2]).isOk = true) ∧
    (∀ d1 d2 : ℤ, d2 < 1 →
      (∀ s0 s1 bit : ℚ, (embedSelect d1 d2 s0 s1 bit).2 = s1) ∧
      (∀ s0 s1 s1p : ℚ, extractSelect d1 d2 s0 s1 = extractSelect d1 d2 s0 s1p)) := by
  constructor
  · intro d1 d2
    exact ⟨rfl, rfl⟩
  · intro d1 d2 hd2
    constructor
    · intro s0 s1 bit
      simp only [embedSelect, if_pos hd2, embedD1]
    · intro s0 s1 s1p
      simp only [extractSelect, if_pos hd2, extractD1]

/-- Witness for C7 at d1 = 5, d2 = 0. -/
theorem C7_options_validation_witness :
    ((NewW [WithD1 5]).isOk = true ∧ (NewW [WithD1D2 5 0]).isOk = true) ∧
    ((0 : ℤ) < 1) ∧
    (∀ s0 s1 bit : ℚ, (embedSelect 5 0 s0 s1 bit).2 = s1) ∧
    (∀ s0 s1 s1p : ℚ, extractSelect 5 0 s0 s1 = extractSelect 5 0 s0 s1p) :=
  ⟨C7_options_validation.1 5 0, by decide,
   (C7_options_validation.2 5 0 (by decide)).1,
   (C7_options_validation.2 5 0 (by decide)).2⟩

/-- Identity-style oracle for concrete runs: the DWT returns the channel as
cA, the inverse returns the cA subband, the DCT is the identity with an
identity write-back, and the SVD always succeeds. -/
def idOracle : TransformOracle :=
  ⟨fun c => [c, [], [], []], fun ws => ws.getD 0 [], fun d => (d, id),
   fun s => some ([s.headD 0, 0], fun t => [t.headD 0])⟩

/-- Oracle whose SVD fails exactly on the block data [5]: the constant DWT
yields cA = [5, 7], so with block area 1 the SVD errors on block 0 and
would succeed on block 1. -/
def svdFail5Oracle : TransformOracle :=
  ⟨fun _ => [[(5 : ℚ), 7], [], [], []], fun ws => ws.getD 0 [],
   fun d => (d, id),
   fun s => if s = [(5 : ℚ)] then none else some ([s.headD 0, 0], fun t => [t.headD 0])⟩

/-- All-zero source image with bounds (0,0)-(3,1): width 3, height 1. -/
def srcImg3x1 : GoImage := ⟨⟨0, 0, 3, 1⟩, fun _ _ => zeroPix⟩

/-- Empty source image with bounds (0,0)-(0,0). -/
def srcImg0 : GoImage := ⟨⟨0, 0, 0, 0⟩, fun _ _ => zeroPix⟩

/-- C1: the code violates the skip-and-continue contract. At a schedule
where the SVD returns the not-factorizable error on block 0 of 2 and would
succeed on block 1, the Embed worker loop returns from the whole channel
(ChanRes.nilChan: block 1 is never processed, the channel slice stays nil
and the inverse DWT never runs), the whole Embed call then panics during
image reconstruction instead of producing an image, while the
skip-and-continue loop the spec describes processes block 1 and completes
the channel with only block 0 left unchanged. -/
theorem C1_svd_error_aborts_channel :
    embedLoop svdFail5Oracle.dct svdFail5Oracle.svd (embedD1D2 36 20) [true] 1 0 2
        [(5 : ℚ), 7] = ChanRes.nilChan ∧
    (EmbedM svdFail5Oracle (embedD1D2 36 20) 1 1 [true] srcImg3x1).isPanicked = true ∧
    embedLoopSkip svdFail5Oracle.dct svdFail5Oracle.svd (embedD1D2 36 20) [true] 1 0 2
        [(5 : ℚ), 7] = ChanRes.okChan [(5 : ℚ), 18] := by
  refine ⟨by decide, rfl, ?_⟩
  have h7 : Int.tdiv 7 36 = 0 := by decide
  norm_num [embedLoopSkip, getBitM, writeSlice, embedD1D2, goTrunc, svdFail5Oracle, h7]

theorem gatherPixels_length (src : GoImage) (W H : ℕ) :
    (gatherPixels src W H).length = W * H := by
  induction H with
  | zero => rfl
  | succ n ih =>
    simp only [gatherPixels, List.range_succ, List.flatMap_append] at ih ⊢
    simp only [List.length_append, ih, List.flatMap_cons, List.flatMap_nil,
      List.append_nil, List.length_map, List.length_range, Nat.mul_succ]

theorem embedLoop_total (dctO : List ℚ → List ℚ × (List ℚ → List ℚ))
    (svdO : List ℚ → Option (List ℚ × (List ℚ → List ℚ)))
    (embedF : ℚ → ℚ → ℚ → ℚ × ℚ) (mark : List Bool) (blockArea : ℕ)
    (hmark : mark ≠ []) (hsvd : ∀ d, (svdO d).isSome = true) :
    ∀ rem at_ cA, ∃ cA2,
      embedLoop dctO svdO embedF mark blockArea at_ rem cA = ChanRes.okChan cA2 := by
  intro rem
  induction rem with
  | zero => exact fun at_ cA => ⟨cA, rfl⟩
  | succ n ih =>
    intro at_ cA
    have hlen : ¬ mark.length = 0 := by simpa using hmark
    have hbit : getBitM mark at_
        = some (if mark.getD (at_ % mark.length) false then 1 else 0) := by
      simp [getBitM, hlen]
    obtain ⟨si, hsi⟩ := Option.isSome_iff_exists.1
      (hsvd (dctO ((cA.drop (at_ * blockArea)).take blockArea)).1)
    simp only [embedLoop, hbit, hsi]
    exact ih _ _

theorem embedChannel_ok (O : TransformOracle) (embedF : ℚ → ℚ → ℚ → ℚ × ℚ)
    (mark : List Bool) (blockArea totalBlocks : ℕ) (chan : List ℚ)
    (hmark : mark ≠ []) (hsvd : ∀ d, (O.svd d).isSome = true) :
    ∃ ws, embedChannel O embedF mark blockArea totalBlocks chan
      = ChanRes.okChan (O.idwt ws) := by
  obtain ⟨cA2, h⟩ := embedLoop_total O.dct O.svd embedF mark blockArea hmark hsvd
    totalBlocks 0 ((O.dwt chan).getD 0 [])
  refine ⟨[cA2, (O.dwt chan).getD 1 [], (O.dwt chan).getD 2 [],
    (O.dwt chan).getD 3 []], ?_⟩
  simp only [embedChannel, h]

theorem embedM_isTooSmall_iff (O : TransformOracle) (embedF : ℚ → ℚ → ℚ → ℚ × ℚ)
    (bw bh : ℕ) (mark : List Bool) (src : GoImage) :
    (EmbedM O embedF bw bh mark src).isTooSmall = true ↔
      (src.bounds.dx + 1) / 2 / bw * ((src.bounds.dy + 1) / 2 / bh) < mark.length := by
  simp only [EmbedM]
  by_cases h : (src.bounds.dx + 1) / 2 / bw * ((src.bounds.dy + 1) / 2 / bh) < mark.length
  · rw [if_pos h]
    simp [EmbedRes.isTooSmall, h]
  · rw [if_neg h]
    constructor
    · intro hc
      exfalso
      revert hc
      split
      · intro hc
        cases hc
      · split
        · intro hc
          cases hc
        · intro hc
          cases hc
    · intro hc
      exact absurd hc h

theorem extractM_tooSmall_iff (O : TransformOracle) (extractF : ℚ → ℚ → ℚ)
    (bw bh markLen : ℕ) (src : GoImage) :
    ExtractM O extractF bw bh markLen src = ExtractRes.tooSmall ↔
      (src.bounds.dx + 1) / 2 / bw * ((src.bounds.dy + 1) / 2 / bh) < markLen := by
  have hvote : ∀ (v : VoteRes) (k : List AverageStore → ExtractRes),
      (∀ d, k d ≠ ExtractRes.tooSmall) → voteThen v k ≠ ExtractRes.tooSmall := by
    intro v k hk
    cases v with
    | panicked => simp [voteThen]
    | done d => exact hk d
  have hkm : ∀ dist, kmeansFinish dist ≠ ExtractRes.tooSmall := by
    intro dist
    simp only [kmeansFinish]
    split <;> simp
  simp only [ExtractM]
  by_cases h : (src.bounds.dx + 1) / 2 / bw * ((src.bounds.dy + 1) / 2 / bh) < markLen
  · rw [if_pos h]
    simp [h]
  · rw [if_neg h]
    constructor
    · intro hc
      exact absurd hc (hvote _ _ (fun d1 => hvote _ _ (fun d2 => hvote _ _ hkm)))
    · intro hc
      exact absurd hc h

theorem embedM_ok (O : TransformOracle) (embedF : ℚ → ℚ → ℚ → ℚ × ℚ)
    (bw bh : ℕ) (mark : List Bool) (src : GoImage)
    (hmark : mark ≠ [])
    (hcap : ¬ ((src.bounds.dx + 1) / 2 / bw * ((src.bounds.dy + 1) / 2 / bh) < mark.length))
    (hsvd : ∀ d, (O.svd d).isSome = true)
    (hidwt : ∀ ws, (O.idwt ws).length = src.bounds.dx * src.bounds.dy) :
    (EmbedM O embedF bw bh mark src).isOk = true := by
  simp only [EmbedM]
  rw [if_neg hcap]
  obtain ⟨ws0, h0⟩ := embedChannel_ok O embedF mark (bw * bh)
    ((src.bounds.dx + 1) / 2 / bw * ((src.bounds.dy + 1) / 2 / bh))
    ((gatherPixels src src.bounds.dx src.bounds.dy).map rgbaY) hmark hsvd
  obtain ⟨ws1, h1⟩ := embedChannel_ok O embedF mark (bw * bh)
    ((src.bounds.dx + 1) / 2 / bw * ((src.bounds.dy + 1) / 2 / bh))
    ((gatherPixels src src.bounds.dx src.bounds.dy).map rgbaU) hmark hsvd
  obtain ⟨ws2, h2⟩ := embedChannel_ok O embedF mark (bw * bh)
    ((src.bounds.dx + 1) / 2 / bw * ((src.bounds.dy + 1) / 2 / bh))
    ((gatherPixels src src.bounds.dx src.bounds.dy).map rgbaV) hmark hsvd
  rw [h0, h1, h2]
  have halpha : ((gatherPixels src src.bounds.dx src.bounds.dy).map Pix.a).length
      = src.bounds.dx * src.bounds.dy := by
    rw [List.length_map, gatherPixels_length]
  simp only [ChanRes.isPanic, Bool.or_self, ChanRes.toList, yuvToRGBA64Batch,
    hidwt ws0, hidwt ws1, hidwt ws2, halpha, le_refl, and_self, if_true,
    Bool.false_eq_true, if_false]
  rfl

/-- C2 counterexample: with the empty mark on a 3 by 1 image (two blocks),
the capacity check passes (2 < 0 is false), yet Embed neither returns the
ImageTooSmall error nor succeeds: it panics on the integer division at % 0
inside getBit. -/
theorem C2_counterexample :
    (EmbedM idOracle (embedD1D2 36 20) 1 1 [] srcImg3x1).isTooSmall = false ∧
    (EmbedM idOracle (embedD1D2 36 20) 1 1 [] srcImg3x1).isOk = false ∧
    (EmbedM idOracle (embedD1D2 36 20) 1 1 [] srcImg3x1).isPanicked = true :=
  ⟨rfl, rfl, rfl⟩

/-- C2 amended: Embed returns the ImageTooSmall error exactly when
totalBlocks = (waveWidth / bw) * (waveHeight / bh) with integer division on
the post-canonicalization shape is strictly below the mark bit length, and
Extract behaves identically against the expected length; the outcome of the
check depends only on the image bounds and never on pixel content (the
check runs before any pixel is read); and otherwise the call succeeds
provided the mark is non-empty and no block fails (total SVD, full-size
inverse DWT) - with an empty mark the call panics instead (see the
counterexample). -/
theorem C2_capacity_check (O : TransformOracle) (embedF : ℚ → ℚ → ℚ → ℚ × ℚ)
    (extractF : ℚ → ℚ → ℚ) (bw bh markLen : ℕ) (mark : List Bool) (src : GoImage) :
    ((EmbedM O embedF bw bh mark src).isTooSmall = true ↔
      (src.bounds.dx + 1) / 2 / bw * ((src.bounds.dy + 1) / 2 / bh) < mark.length) ∧
    (ExtractM O extractF bw bh markLen src = ExtractRes.tooSmall ↔
      (src.bounds.dx + 1) / 2 / bw * ((src.bounds.dy + 1) / 2 / bh) < markLen) ∧
    (∀ src2 : GoImage, src2.bounds = src.bounds →
      (EmbedM O embedF bw bh mark src2).isTooSmall
        = (EmbedM O embedF bw bh mark src).isTooSmall) ∧
    (mark ≠ [] →
      mark.length ≤ (src.bounds.dx + 1) / 2 / bw * ((src.bounds.dy + 1) / 2 / bh) →
      (∀ d, (O.svd d).isSome = true) →
      (∀ ws, (O.idwt ws).length = src.bounds.dx * src.bounds.dy) →
      (EmbedM O embedF bw bh mark src).isOk = true) := by
  refine ⟨embedM_isTooSmall_iff O embedF bw bh mark src,
    extractM_tooSmall_iff O extractF bw bh markLen src, ?_, ?_⟩
  · intro src2 hb
    have h1 := embedM_isTooSmall_iff O embedF bw bh mark src
    have h2 := embedM_isTooSmall_iff O embedF bw bh mark src2
    rw [hb] at h2
    rw [Bool.eq_iff_iff, h1, h2]
  · intro hne hcap hsvd hidwt
    exact embedM_ok O embedF bw bh mark src hne (Nat.not_lt.2 hcap) hsvd hidwt

/-- Oracle with a constant length-3 inverse DWT, matching the 3 by 1 image
area, with a total SVD. -/
def wOracle3 : TransformOracle :=
  ⟨fun c => [c, [], [], []], fun _ => [0, 0, 0], fun d => (d, id),
   fun s => some ([s.headD 0, 0], fun t => [t.headD 0])⟩

/-- Witness for C2 on the 3 by 1 image with the one-bit mark [true]. -/
theorem C2_capacity_check_witness :
    ((EmbedM wOracle3 (embedD1D2 36 20) 1 1 [true] srcImg3x1).isTooSmall = true ↔
      (srcImg3x1.bounds.dx + 1) / 2 / 1 * ((srcImg3x1.bounds.dy + 1) / 2 / 1)
        < [true].length) ∧
    ([true] ≠ []) ∧
    (EmbedM wOracle3 (embedD1D2 36 20) 1 1 [true] srcImg3x1).isOk = true := by
  have h := C2_capacity_check wOracle3 (embedD1D2 36 20) (extractD1D2 36 20) 1 1 1 [true]
    srcImg3x1
  exact ⟨h.1, by decide, h.2.2.2 (by decide) (by decide) (fun d => rfl) (fun ws => rfl)⟩

/-- C10 counterexample: with markLen = 0 on an image with two blocks and a
successful SVD, Extract panics in the vote accumulation (integer division
by zero in the dist[at % 0] index) before OneDimKmeans is ever reached,
refuting that it always reaches OneDimKmeans with an empty slice and panics
indexing averages[0]. -/
theorem C10_counterexample :
    ExtractM wOracle3 (extractD1D2 36 20) 1 1 0 srcImg3x1 = ExtractRes.panickedVote := rfl

/-- C10 amended: the empty mark passes the capacity check in both Embed and
Extract (totalBlocks < 0 never holds); Embed then panics with the integer
division by zero inside getBit whenever totalBlocks is at least 1; Extract
with markLen = 0 never returns an error value: when totalBlocks = 0 it
reaches OneDimKmeans with the empty averages slice and panics indexing
averages[0], while when a block votes (totalBlocks at least 1 and the SVD
succeeds) it panics earlier, in the vote accumulation. -/
theorem C10_empty_mark (O : TransformOracle) (embedF : ℚ → ℚ → ℚ → ℚ × ℚ)
    (extractF : ℚ → ℚ → ℚ) (bw bh : ℕ) (src : GoImage) :
    (EmbedM O embedF bw bh [] src).isTooSmall = false ∧
    (ExtractM O extractF bw bh 0 src ≠ ExtractRes.tooSmall) ∧
    (1 ≤ (src.bounds.dx + 1) / 2 / bw * ((src.bounds.dy + 1) / 2 / bh) →
      (EmbedM O embedF bw bh [] src).isPanicked = true) ∧
    ((src.bounds.dx + 1) / 2 / bw * ((src.bounds.dy + 1) / 2 / bh) = 0 →
      ExtractM O extractF bw bh 0 src = ExtractRes.panickedKmeans) ∧
    (1 ≤ (src.bounds.dx + 1) / 2 / bw * ((src.bounds.dy + 1) / 2 / bh) →
      (∀ d, (O.svd d).isSome = true) →
      ExtractM O extractF bw bh 0 src = ExtractRes.panickedVote) := by
  refine ⟨?_, ?_, ?_, ?_, ?_⟩
  · have h := embedM_isTooSmall_iff O embedF bw bh [] src
    simp only [List.length_nil, Nat.not_lt_zero, iff_false] at h
    simpa using h
  · intro hc
    exact absurd ((extractM_tooSmall_iff O extractF bw bh 0 src).1 hc) (by omega)
  · intro htot
    obtain ⟨n, hn⟩ : ∃ n,
        (src.bounds.dx + 1) / 2 / bw * ((src.bounds.dy + 1) / 2 / bh) = n + 1 :=
      ⟨(src.bounds.dx + 1) / 2 / bw * ((src.bounds.dy + 1) / 2 / bh) - 1, by omega⟩
    have hch : ∀ chan, embedChannel O embedF [] (bw * bh) (n + 1) chan
        = ChanRes.panicked := by
      intro chan
      simp [embedChannel, embedLoop, getBitM]
    simp only [EmbedM, List.length_nil, hn]
    rw [if_neg (Nat.not_lt_zero _)]
    simp [hch, ChanRes.isPanic, EmbedRes.isPanicked]
  · intro htot
    simp only [ExtractM, htot]
    rw [if_neg (Nat.lt_irrefl 0)]
    rfl
  · intro htot hsvd
    obtain ⟨n, hn⟩ : ∃ n,
        (src.bounds.dx + 1) / 2 / bw * ((src.bounds.dy + 1) / 2 / bh) = n + 1 :=
      ⟨(src.bounds.dx + 1) / 2 / bw * ((src.bounds.dy + 1) / 2 / bh) - 1, by omega⟩
    have hloop : ∀ cA dist,
        extractLoop O.dct O.svd extractF 0 (bw * bh) cA 0 (n + 1) dist
          = VoteRes.panicked := by
      intro cA dist
      simp only [extractLoop]
      obtain ⟨si, hsi⟩ := Option.isSome_iff_exists.1
        (hsvd (O.dct ((cA.drop (0 * (bw * bh))).take (bw * bh))).1)
      rw [hsi]
      simp [setValueM]
    simp only [ExtractM, hn]
    rw [if_neg (Nat.not_lt_zero _)]
    simp only [hloop, voteThen]

/-- Witness for C10: the 3 by 1 image has two blocks (the clauses with
totalBlocks at least 1) and the empty image none (the OneDimKmeans
clause). -/
theorem C10_empty_mark_witness :
    (1 ≤ (srcImg3x1.bounds.dx + 1) / 2 / 1 * ((srcImg3x1.bounds.dy + 1) / 2 / 1)) ∧
    (EmbedM wOracle3 (embedD1D2 36 20) 1 1 [] srcImg3x1).isPanicked = true ∧
    ExtractM wOracle3 (extractD1D2 36 20) 1 1 0 srcImg3x1 = ExtractRes.panickedVote ∧
    ((srcImg0.bounds.dx + 1) / 2 / 1 * ((srcImg0.bounds.dy + 1) / 2 / 1) = 0) ∧
    ExtractM wOracle3 (extractD1D2 36 20) 1 1 0 srcImg0 = ExtractRes.panickedKmeans := by
  have h1 := C10_empty_mark wOracle3 (embedD1D2 36 20) (extractD1D2 36 20) 1 1 srcImg3x1
  have h0 := C10_empty_mark wOracle3 (embedD1D2 36 20) (extractD1D2 36 20) 1 1 srcImg0
  exact ⟨by decide, h1.2.2.1 (by decide), h1.2.2.2.2 (by decide) (fun d => rfl),
    by decide, h0.2.2.2.1 (by decide)⟩

theorem getD_map_range {α : Type} (f : ℕ → α) (n i : ℕ) (hi : i < n) (d : α) :
    ((List.range n).map f).getD i d = f i := by
  rw [List.getD_eq_getElem?_getD, List.getElem?_map, List.getElem?_range hi]
  rfl

theorem grid_mem (W H x y : ℕ) :
    (x, y) ∈ (List.range H).flatMap (fun y => (List.range W).map (fun x => (x, y))) ↔
      x < W ∧ y < H := by
  simp only [List.mem_flatMap, List.mem_map, List.mem_range, Prod.mk.injEq]
  constructor
  · rintro ⟨y2, hy2, x2, hx2, rfl, rfl⟩
    exact ⟨hx2, hy2⟩
  · rintro ⟨hx, hy⟩
    exact ⟨y, hy, x, hx, rfl, rfl⟩

theorem grid_nodup (W : ℕ) :
    ∀ H, ((List.range H).flatMap (fun y => (List.range W).map (fun x => (x, y)))).Nodup := by
  intro H
  induction H with
  | zero => exact List.nodup_nil
  | succ n ih =>
    rw [List.range_succ, List.flatMap_append]
    refine List.Nodup.append ih ?_ ?_
    · simp only [List.flatMap_cons, List.flatMap_nil, List.append_nil]
      exact (List.nodup_range W).map (fun a b hab => by
        simpa using congrArg Prod.fst hab)
    · intro p hp hp2
      simp only [List.flatMap_cons, List.flatMap_nil, List.append_nil, List.mem_map,
        List.mem_range] at hp2
      obtain ⟨x2, _, rfl⟩ := hp2
      obtain ⟨hx, hy⟩ := (grid_mem W n x2 n).1 hp
      exact absurd hy (Nat.lt_irrefl n)

theorem setRGBA64_bounds (img : GoImage) (x y : ℤ) (p : Pix) :
    (setRGBA64 img x y p).bounds = img.bounds := by
  unfold setRGBA64
  split <;> rfl

theorem foldl_set_bounds (pl : List Pix) (W : ℕ) :
    ∀ (L : List (ℕ × ℕ)) (img : GoImage),
      (L.foldl (fun img xy => setRGBA64 img (xy.1 : ℤ) (xy.2 : ℤ)
        (pl.getD (xy.2 * W + xy.1) zeroPix)) img).bounds = img.bounds := by
  intro L
  induction L with
  | nil => exact fun img => rfl
  | cons hd tl ih =>
    intro img
    rw [List.foldl_cons, ih, setRGBA64_bounds]

theorem foldl_set_pix_not_mem (pl : List Pix) (W : ℕ) (x0 y0 : ℕ) :
    ∀ (L : List (ℕ × ℕ)) (img : GoImage), (x0, y0) ∉ L →
      (L.foldl (fun img xy => setRGBA64 img (xy.1 : ℤ) (xy.2 : ℤ)
        (pl.getD (xy.2 * W + xy.1) zeroPix)) img).pix (x0 : ℤ) (y0 : ℤ)
        = img.pix (x0 : ℤ) (y0 : ℤ) := by
  intro L
  induction L with
  | nil => exact fun img _ => rfl
  | cons hd tl ih =>
    intro img hmem
    rw [List.foldl_cons, ih _ (fun hc => hmem (List.mem_cons_of_mem hd hc))]
    unfold setRGBA64
    split
    · simp only
      rw [if_neg]
      rintro ⟨hx, hy⟩
      apply hmem
      have hx2 : x0 = hd.1 := by exact_mod_cast hx
      have hy2 : y0 = hd.2 := by exact_mod_cast hy
      rw [hx2, hy2]
      exact List.mem_cons_self hd tl
    · rfl

theorem foldl_set_pix_mem (pl : List Pix) (W : ℕ) (x0 y0 : ℕ) :
    ∀ (L : List (ℕ × ℕ)) (img : GoImage), L.Nodup → (x0, y0) ∈ L →
      img.bounds.holds (x0 : ℤ) (y0 : ℤ) →
      (L.foldl (fun img xy => setRGBA64 img (xy.1 : ℤ) (xy.2 : ℤ)
        (pl.getD (xy.2 * W + xy.1) zeroPix)) img).pix (x0 : ℤ) (y0 : ℤ)
        = pl.getD (y0 * W + x0) zeroPix := by
  intro L
  induction L with
  | nil => exact fun img _ h => absurd h (List.not_mem_nil _)
  | cons hd tl ih =>
    intro img hnd hmem hin
    rcases List.mem_cons.1 hmem with heq | htl
    · subst heq
      rw [List.foldl_cons]
      have hnotl : ((x0 : ℕ), (y0 : ℕ)) ∉ tl := (List.nodup_cons.1 hnd).1
      rw [foldl_set_pix_not_mem pl W x0 y0 tl _ hnotl]
      unfold setRGBA64
      rw [if_pos hin]
      simp
    · rw [List.foldl_cons]
      refine ih _ (List.nodup_cons.1 hnd).2 htl ?_
      rw [setRGBA64_bounds]
      exact hin

theorem foldl_set_skip (pl : List Pix) (W : ℕ) (b : Rect) :
    ∀ (L : List (ℕ × ℕ)) (img : GoImage), img.bounds = b →
      (∀ xy ∈ L, ¬ b.holds (xy.1 : ℤ) (xy.2 : ℤ)) →
      L.foldl (fun img xy => setRGBA64 img (xy.1 : ℤ) (xy.2 : ℤ)
        (pl.getD (xy.2 * W + xy.1) zeroPix)) img = img := by
  intro L
  induction L with
  | nil => exact fun img _ _ => rfl
  | cons hd tl ih =>
    intro img hb hmiss
    rw [List.foldl_cons]
    have hset : setRGBA64 img (hd.1 : ℤ) (hd.2 : ℤ)
        (pl.getD (hd.2 * W + hd.1) zeroPix) = img := by
      unfold setRGBA64
      rw [if_neg]
      rw [hb]
      exact hmiss hd (List.mem_cons_self hd tl)
    rw [hset]
    exact ih img hb (fun xy hxy => hmiss xy (List.mem_cons_of_mem hd hxy))

theorem scatterPixels_bounds (b : Rect) (W H : ℕ) (pl : List Pix) :
    (scatterPixels b W H pl).bounds = b := by
  unfold scatterPixels
  rw [foldl_set_bounds]
  rfl

theorem scatterPixels_pix (b : Rect) (W H : ℕ) (pl : List Pix) (x y : ℕ)
    (hx : x < W) (hy : y < H) (hin : b.holds (x : ℤ) (y : ℤ)) :
    (scatterPixels b W H pl).pix (x : ℤ) (y : ℤ) = pl.getD (y * W + x) zeroPix := by
  unfold scatterPixels
  exact foldl_set_pix_mem pl W x y _ _ (grid_nodup W H) ((grid_mem W H x y).2 ⟨hx, hy⟩) hin

theorem scatterPixels_miss (b : Rect) (W H : ℕ) (pl : List Pix)
    (hdisj : ∀ x y : ℕ, x < W → y < H → ¬ b.holds (x : ℤ) (y : ℤ)) :
    ∀ x y : ℤ, (scatterPixels b W H pl).pix x y = zeroPix := by
  intro x y
  unfold scatterPixels
  rw [foldl_set_skip pl W b _ _ rfl]
  · rfl
  · intro xy hxy
    obtain ⟨hx, hy⟩ := (grid_mem W H xy.1 xy.2).1 hxy
    exact hdisj xy.1 xy.2 hx hy


theorem gatherPixels_getD (src : GoImage) (W : ℕ) :
    ∀ (H x y : ℕ), x < W → y < H →
      (gatherPixels src W H).getD (y * W + x) zeroPix = src.pix (x : ℤ) (y : ℤ) := by
  intro H
  induction H with
  | zero => exact fun x y _ hy => absurd hy (Nat.not_lt_zero y)
  | succ n ih =>
    intro x y hx hy
    have hrow : gatherPixels src W (n + 1)
        = gatherPixels src W n ++ (List.range W).map (fun (x : ℕ) => src.pix ↑x ↑n) := by
      simp only [gatherPixels, List.range_succ, List.flatMap_append, List.flatMap_cons,
        List.flatMap_nil, List.append_nil]
    have hlen : (gatherPixels src W n).length = W * n := gatherPixels_length src W n
    rw [hrow]
    rcases Nat.lt_or_ge y n with hyn | hyn
    · have hidx : y * W + x < (gatherPixels src W n).length := by
        rw [hlen]
        have h1 : (y + 1) * W ≤ n * W := Nat.mul_le_mul_right W (by omega)
        have h2 : (y + 1) * W = y * W + W := by ring
        have h3 : n * W = W * n := Nat.mul_comm _ _
        omega
      rw [List.getD_append _ _ _ _ hidx]
      exact ih x y hx hyn
    · have hyeq : y = n := by omega
      subst hyeq
      have hge : (gatherPixels src W y).length ≤ y * W + x := by
        rw [hlen]
        have h3 : y * W = W * y := Nat.mul_comm _ _
        omega
      rw [List.getD_append_right _ _ _ _ hge, hlen]
      have hsub : y * W + x - W * y = x := by
        have h3 : y * W = W * y := Nat.mul_comm _ _
        omega
      rw [hsub, getD_map_range (fun (x : ℕ) => src.pix ↑x ↑y) W x hx]

theorem getD_map_pixa (pixels : List Pix) (i : ℕ) (hi : i < pixels.length) :
    (pixels.map Pix.a).getD i 0 = (pixels.getD i zeroPix).a := by
  rw [List.getD_eq_getElem?_getD, List.getD_eq_getElem?_getD, List.getElem?_map,
    List.getElem?_eq_getElem hi]
  rfl

theorem embedM_ok_eq (O : TransformOracle) (embedF : ℚ → ℚ → ℚ → ℚ × ℚ)
    (bw bh : ℕ) (mark : List Bool) (src : GoImage)
    (hmark : mark ≠ [])
    (hcap : ¬ ((src.bounds.dx + 1) / 2 / bw * ((src.bounds.dy + 1) / 2 / bh) < mark.length))
    (hsvd : ∀ d, (O.svd d).isSome = true)
    (hidwt : ∀ ws, (O.idwt ws).length = src.bounds.dx * src.bounds.dy) :
    ∃ pl, EmbedM O embedF bw bh mark src
        = EmbedRes.okImg (scatterPixels src.bounds src.bounds.dx src.bounds.dy pl) ∧
      ∀ i, i < src.bounds.dx * src.bounds.dy →
        (pl.getD i zeroPix).a
          = ((gatherPixels src src.bounds.dx src.bounds.dy).getD i zeroPix).a := by
  simp only [EmbedM]
  rw [if_neg hcap]
  obtain ⟨ws0, h0⟩ := embedChannel_ok O embedF mark (bw * bh)
    ((src.bounds.dx + 1) / 2 / bw * ((src.bounds.dy + 1) / 2 / bh))
    ((gatherPixels src src.bounds.dx src.bounds.dy).map rgbaY) hmark hsvd
  obtain ⟨ws1, h1⟩ := embedChannel_ok O embedF mark (bw * bh)
    ((src.bounds.dx + 1) / 2 / bw * ((src.bounds.dy + 1) / 2 / bh))
    ((gatherPixels src src.bounds.dx src.bounds.dy).map rgbaU) hmark hsvd
  obtain ⟨ws2, h2⟩ := embedChannel_ok O embedF mark (bw * bh)
    ((src.bounds.dx + 1) / 2 / bw * ((src.bounds.dy + 1) / 2 / bh))
    ((gatherPixels src src.bounds.dx src.bounds.dy).map rgbaV) hmark hsvd
  rw [h0, h1, h2]
  have halpha : ((gatherPixels src src.bounds.dx src.bounds.dy).map Pix.a).length
      = src.bounds.dx * src.bounds.dy := by
    rw [List.length_map, gatherPixels_length]
  simp only [ChanRes.isPanic, Bool.or_self, ChanRes.toList, yuvToRGBA64Batch,
    hidwt ws0, hidwt ws1, hidwt ws2, halpha, le_refl, and_self, if_true,
    Bool.false_eq_true, if_false]
  refine ⟨_, rfl, ?_⟩
  intro i hi
  rw [getD_map_range _ _ i hi]
  show ((gatherPixels src src.bounds.dx src.bounds.dy).map Pix.a).getD i 0
    = ((gatherPixels src src.bounds.dx src.bounds.dy).getD i zeroPix).a
  exact getD_map_pixa _ i (by rw [gatherPixels_length]; exact hi)

/-- Source image with bounds minimum (1,1), size 1 by 1, fully opaque. -/
def srcOff1 : GoImage := ⟨⟨1, 1, 2, 2⟩, fun _ _ => ⟨0, 0, 0, 65535⟩⟩

/-- Oracle with a constant length-1 inverse DWT (area of a 1 by 1 image)
and a total SVD. -/
def w1Oracle : TransformOracle :=
  ⟨fun c => [c, [], [], []], fun _ => [0], fun d => (d, id),
   fun s => some ([s.headD 0, 0], fun t => [t.headD 0])⟩

/-- C6 counterexample: on a source whose bounds minimum is (1,1), Embed
passes the capacity check and succeeds, but the returned image carries
alpha 0 at the pixel (1,1) whose source alpha is 65535: alpha is not
preserved, because reads and writes use absolute coordinates from (0,0). -/
theorem C6_counterexample :
    (EmbedM w1Oracle (embedD1D2 36 20) 1 1 [true] srcOff1).isOk = true ∧
    (((EmbedM w1Oracle (embedD1D2 36 20) 1 1 [true] srcOff1).imgD srcImg0).atO 1 1).a = 0 ∧
    (srcOff1.pix 1 1).a = 65535 :=
  ⟨rfl, rfl, rfl⟩

/-- C6 amended: for every source image with bounds minimum (0,0) that
passes the capacity check with a non-empty mark (and whose blocks all
factor, with a full-size inverse DWT), Embed returns a fresh RGBA64 image
whose bounds equal the source bounds and whose 16-bit alpha equals the
source alpha at every pixel; without the (0,0) minimum this fails (see the
counterexample). The model is pure, so the source value is never mutated by
construction. -/
theorem C6_embed_output (O : TransformOracle) (embedF : ℚ → ℚ → ℚ → ℚ × ℚ)
    (bw bh : ℕ) (mark : List Bool) (src : GoImage)
    (hx0 : src.bounds.x0 = 0) (hy0 : src.bounds.y0 = 0)
    (hmark : mark ≠ [])
    (hcap : mark.length ≤ (src.bounds.dx + 1) / 2 / bw * ((src.bounds.dy + 1) / 2 / bh))
    (hsvd : ∀ d, (O.svd d).isSome = true)
    (hidwt : ∀ ws, (O.idwt ws).length = src.bounds.dx * src.bounds.dy) :
    ∃ out, EmbedM O embedF bw bh mark src = EmbedRes.okImg out ∧
      out.bounds = src.bounds ∧
      ∀ x y : ℕ, x < src.bounds.dx → y < src.bounds.dy →
        (out.atO (x : ℤ) (y : ℤ)).a = (src.pix (x : ℤ) (y : ℤ)).a := by
  obtain ⟨pl, hE, hpl⟩ := embedM_ok_eq O embedF bw bh mark src hmark
    (Nat.not_lt.2 hcap) hsvd hidwt
  refine ⟨_, hE, scatterPixels_bounds _ _ _ _, ?_⟩
  intro x y hx hy
  have hx1 := hx
  have hy1 := hy
  unfold Rect.dx at hx1
  unfold Rect.dy at hy1
  rw [hx0] at hx1
  rw [hy0] at hy1
  have hin : src.bounds.holds (x : ℤ) (y : ℤ) := by
    refine ⟨by omega, by omega, by omega, by omega⟩
  have hidx : y * src.bounds.dx + x < src.bounds.dx * src.bounds.dy := by
    have h1 : (y + 1) * src.bounds.dx ≤ src.bounds.dy * src.bounds.dx :=
      Nat.mul_le_mul_right _ (by omega)
    have h2 : (y + 1) * src.bounds.dx = y * src.bounds.dx + src.bounds.dx := by ring
    have h3 : src.bounds.dy * src.bounds.dx = src.bounds.dx * src.bounds.dy :=
      Nat.mul_comm _ _
    omega
  simp only [GoImage.atO, scatterPixels_bounds]
  rw [if_pos hin, scatterPixels_pix _ _ _ _ x y hx hy hin, hpl _ hidx,
    gatherPixels_getD src src.bounds.dx src.bounds.dy x y hx hy]

/-- Witness for C6 on the 3 by 1 image at (0,0) with the one-bit mark. -/
theorem C6_embed_output_witness :
    (srcImg3x1.bounds.x0 = 0 ∧ srcImg3x1.bounds.y0 = 0 ∧ ([true] ≠ []) ∧
      [true].length ≤ (srcImg3x1.bounds.dx + 1) / 2 / 1 * ((srcImg3x1.bounds.dy + 1) / 2 / 1)) ∧
    (∃ out, EmbedM wOracle3 (embedD1D2 36 20) 1 1 [true] srcImg3x1 = EmbedRes.okImg out ∧
      out.bounds = srcImg3x1.bounds ∧
      ∀ x y : ℕ, x < srcImg3x1.bounds.dx → y < srcImg3x1.bounds.dy →
        (out.atO (x : ℤ) (y : ℤ)).a = (srcImg3x1.pix (x : ℤ) (y : ℤ)).a) :=
  ⟨⟨rfl, rfl, by decide, by decide⟩,
    C6_embed_output wOracle3 (embedD1D2 36 20) 1 1 [true] srcImg3x1 rfl rfl (by decide)
      (by decide) (fun d => rfl) (fun ws => rfl)⟩

/-- C9: Embed reads pixels with src.At at absolute coordinates in
[0, W) x [0, H) and writes with SetRGBA64 at the same absolute coordinates
into an RGBA64 allocated with the source bounds (see gatherPixels and
scatterPixels); hence for every source whose bounds minimum is not (0,0)
and whose bounds rectangle is disjoint from [0, W) x [0, H), every write
misses the output rectangle and any returned image has all channels and
alpha equal to zero at every point, so the embed pipeline carries the
unstated precondition that the bounds minimum is (0,0). -/
theorem C9_absolute_coordinates (O : TransformOracle) (embedF : ℚ → ℚ → ℚ → ℚ × ℚ)
    (bw bh : ℕ) (mark : List Bool) (src : GoImage)
    (hmin : ¬ (src.bounds.x0 = 0 ∧ src.bounds.y0 = 0))
    (hdisj : ∀ x y : ℤ, src.bounds.holds x y →
      ¬ (0 ≤ x ∧ x < (src.bounds.dx : ℤ) ∧ 0 ≤ y ∧ y < (src.bounds.dy : ℤ))) :
    ∀ out, EmbedM O embedF bw bh mark src = EmbedRes.okImg out →
      out.bounds = src.bounds ∧ ∀ x y : ℤ, out.atO x y = zeroPix := by
  intro out hE
  simp only [EmbedM] at hE
  split at hE
  · cases hE
  · split at hE
    · cases hE
    · split at hE
      · cases hE
      · injection hE with h
        have hmiss : ∀ x y : ℕ, x < src.bounds.dx → y < src.bounds.dy →
            ¬ src.bounds.holds (x : ℤ) (y : ℤ) := by
          intro x y hx hy hold
          exact hdisj _ _ hold
            ⟨Int.natCast_nonneg x, by exact_mod_cast hx, Int.natCast_nonneg y,
              by exact_mod_cast hy⟩
        constructor
        · rw [← h, scatterPixels_bounds]
        · intro x y
          rw [← h]
          simp only [GoImage.atO, scatterPixels_bounds]
          split
          · exact scatterPixels_miss _ _ _ _ hmiss x y
          · rfl

/-- Source image with bounds minimum (5,5), size 1 by 1, disjoint from the
absolute rectangle [0,1) x [0,1). -/
def srcOff5 : GoImage := ⟨⟨5, 5, 6, 6⟩, fun _ _ => ⟨1, 2, 3, 65535⟩⟩

/-- Witness for C9 on the 1 by 1 image at (5,5). -/
theorem C9_absolute_coordinates_witness :
    (¬ (srcOff5.bounds.x0 = 0 ∧ srcOff5.bounds.y0 = 0)) ∧
    (EmbedM w1Oracle (embedD1D2 36 20) 1 1 [true] srcOff5
      = EmbedRes.okImg ((EmbedM w1Oracle (embedD1D2 36 20) 1 1 [true] srcOff5).imgD srcImg0)) ∧
    (((EmbedM w1Oracle (embedD1D2 36 20) 1 1 [true] srcOff5).imgD srcImg0).bounds
        = srcOff5.bounds ∧
      ∀ x y : ℤ,
        ((EmbedM w1Oracle (embedD1D2 36 20) 1 1 [true] srcOff5).imgD srcImg0).atO x y
          = zeroPix) :=
  ⟨by decide, rfl,
    C9_absolute_coordinates w1Oracle (embedD1D2 36 20) 1 1 [true] srcOff5 (by decide)
      (by
        intro x y hold
        simp only [srcOff5, Rect.holds, Rect.dx, Rect.dy] at hold ⊢
        omega)
      _ rfl⟩
